import Mathlib

set_option maxHeartbeats 1000000

/- Shallow embedding of the compliance-analysis pipeline of
   app/services/compliance_service.py (class ComplianceService).
   Python regular-expression operations are modelled on lists of
   characters; the whitespace, word and digit character classes follow
   the ASCII reading of the Python classes.  External libraries
   (tiktoken, rapidfuzz, the OpenAI transport) are abstracted as
   explicit parameters of the functions that call them. -/

/-- Model of the Python whitespace class used by the regexes and str.strip. -/
def isPySpace (c : Char) : Bool :=
  c == ' ' || c == '\t' || c == '\n' || c == '\r' || c == Char.ofNat 11 || c == Char.ofNat 12

/-- Model of the regex word class appearing in the allow-list of preprocess_text. -/
def isWordChar (c : Char) : Bool :=
  c.isAlphanum || c == '_'

/-- Characters kept by preprocess_text: word characters, whitespace and the
fixed punctuation set of the regex character class. -/
def isAllowedChar (c : Char) : Bool :=
  isWordChar c || isPySpace c ||
    (c == '.' || c == ',' || c == ';' || c == ':' || c == '?' || c == '!' ||
     c == '(' || c == ')' || c == '-' || c == '\'' || c == '\"')

/-- Model of the first substitution of preprocess_text: every maximal run of
whitespace becomes a single space.  The flag records whether the previous
character belonged to a run already replaced. -/
def collapseWsAux : Bool → List Char → List Char
  | _, [] => []
  | inRun, c :: rest =>
    if isPySpace c then
      if inRun then collapseWsAux true rest else ' ' :: collapseWsAux true rest
    else c :: collapseWsAux false rest

/-- Index of the last newline in a list, if any. -/
def lastNlIdx : List Char → Option Nat
  | [] => none
  | c :: rest =>
    match lastNlIdx rest with
    | some i => some (i + 1)
    | none => if c = '\n' then some 0 else none

/-- Model of the second substitution of preprocess_text (newline, greedy
whitespace, newline, replaced by two newlines).  At a newline, the greedy
match with backtracking extends to the last newline inside the following
whitespace run; scanning resumes after the matched region.  The fuel
argument (at least the input length when called through subBlank) only makes
the recursion structural; exhaustion returns the remaining input unchanged
and is never reached. -/
def subBlankFuel : Nat → List Char → List Char
  | 0, l => l
  | _ + 1, [] => []
  | fuel + 1, c :: rest =>
    if c = '\n' then
      match lastNlIdx (rest.takeWhile fun d => isPySpace d) with
      | some i => '\n' :: '\n' :: subBlankFuel fuel (rest.drop (i + 1))
      | none => c :: subBlankFuel fuel rest
    else c :: subBlankFuel fuel rest

def subBlankAux (l : List Char) : List Char :=
  subBlankFuel l.length l

/-- Model of the third substitution of preprocess_text: every maximal run of
characters outside the allow-list becomes a single space. -/
def subDisallowedAux : Bool → List Char → List Char
  | _, [] => []
  | inRun, c :: rest =>
    if isAllowedChar c then c :: subDisallowedAux false rest
    else if inRun then subDisallowedAux true rest
    else ' ' :: subDisallowedAux true rest

/-- Model of str.strip: whitespace dropped from both ends. -/
def pyStrip (l : List Char) : List Char :=
  ((l.dropWhile isPySpace).reverse.dropWhile isPySpace).reverse

/-- ComplianceService.preprocess_text: collapse whitespace runs to single
spaces, collapse blank lines, replace runs of characters outside the
allow-list by a space, and strip the ends. -/
def preprocess_text (s : String) : String :=
  String.mk (pyStrip (subDisallowedAux false (subBlankAux (collapseWsAux false s.toList))))

/-- Whether the most recently read character (head of the reversed
accumulator) is a sentence-ending punctuation mark — the lookbehind of the
sentence-splitting regex of split_into_chunks. -/
def headIsPunct : List Char → Bool
  | [] => false
  | c :: _ => c == '.' || c == '!' || c == '?'

/-- Model of the sentence split of split_into_chunks (split at each
whitespace run directly preceded by sentence punctuation).  The accumulator
holds the current sentence reversed; a separating whitespace run is consumed
entirely before the next sentence starts.  The fuel argument (more than the
input length when called through splitSentAux) only makes the recursion
structural; exhaustion is never reached, and its fallback keeps every
character of the state. -/
def splitSentFuel : Nat → List Char → List Char → List (List Char)
  | 0, acc, l => [acc.reverse ++ l]
  | _ + 1, acc, [] => [acc.reverse]
  | fuel + 1, acc, c :: rest =>
    if isPySpace c && headIsPunct acc then
      acc.reverse ::
        (match rest.dropWhile (fun d => isPySpace d) with
         | [] => [[]]
         | d :: ds => splitSentFuel fuel [d] ds)
    else splitSentFuel fuel (c :: acc) rest

def splitSentAux (acc l : List Char) : List (List Char) :=
  splitSentFuel (l.length + 1) acc l

def splitSentences (s : String) : List String :=
  (splitSentAux [] s.toList).map String.mk

/-- Model of str.split with no separator argument: whitespace-delimited
words, with no empty words.  The accumulator holds the current word
reversed. -/
def pysplitAux : List Char → List Char → List (List Char)
  | acc, [] => if acc = [] then [] else [acc.reverse]
  | acc, c :: rest =>
    if isPySpace c then
      if acc = [] then pysplitAux [] rest else acc.reverse :: pysplitAux [] rest
    else pysplitAux (c :: acc) rest

def pysplit (s : String) : List String :=
  (pysplitAux [] s.toList).map String.mk

/-- One step of the word-level fallback loop of split_into_chunks: the state
is (chunks flushed so far, current sub-chunk, its token tally). -/
def wordStep (tc : String → Nat) (m : Nat)
    (st : List String × String × Nat) (w : String) : List String × String × Nat :=
  let wt := tc w
  if st.2.2 + wt > m then (st.1 ++ [st.2.1], w, wt)
  else (st.1, if st.2.1 = "" then w else st.2.1 ++ " " ++ w, st.2.2 + wt)

/-- The word-level fallback of split_into_chunks applied to the words of an
oversized sentence. -/
def wordFallback (tc : String → Nat) (m : Nat) (ws : List String) :
    List String × String × Nat :=
  ws.foldl (wordStep tc m) ([], "", 0)

/-- One step of the sentence loop of split_into_chunks: the state is
(chunks, current chunk, its token tally). -/
def sentStep (tc : String → Nat) (m : Nat)
    (st : List String × String × Nat) (s : String) : List String × String × Nat :=
  let stoks := tc s
  if stoks > m then
    let fb := wordFallback tc m (pysplit s)
    (st.1 ++ fb.1 ++ (if fb.2.1 = "" then [] else [fb.2.1]), st.2.1, st.2.2)
  else if st.2.2 + stoks > m then (st.1 ++ [st.2.1], s, stoks)
  else (st.1, if st.2.1 = "" then s else st.2.1 ++ " " ++ s, st.2.2 + stoks)

/-- ComplianceService.split_into_chunks with the token counter passed
explicitly (the Python code defers to the external tiktoken tokenizer for
count_tokens). -/
def split_into_chunks (tc : String → Nat) (text : String) (m : Nat) : List String :=
  let st := (splitSentences text).foldl (sentStep tc m) ([], "", 0)
  st.1 ++ (if st.2.1 = "" then [] else [st.2.1])

/-- Numeric value of a digit run. -/
def digitsVal (l : List Char) : Nat :=
  l.foldl (fun n c => n * 10 + (c.toNat - 48)) 0

def isPrefixList : List Char → List Char → Bool
  | [], _ => true
  | _ :: _, [] => false
  | a :: as, b :: bs => a == b && isPrefixList as bs

/-- Match of the score pattern at one position: after the literal label,
greedy whitespace, then at least one digit (whitespace is never a digit, so
backtracking cannot move the digit group earlier). -/
def matchScoreAt (rest : List Char) : Option Nat :=
  let afterWs := rest.dropWhile fun c => isPySpace c
  let digits := afterWs.takeWhile fun c => c.isDigit
  if digits = [] then none else some (digitsVal digits)

/-- Leftmost match of the Score regex of check_compliance_with_retry. -/
def searchScore : List Char → Option Nat
  | [] => none
  | c :: rest =>
    if isPrefixList "Score:".toList (c :: rest) then
      match matchScoreAt ((c :: rest).drop 6) with
      | some n => some n
      | none => searchScore rest
    else searchScore rest

/-- The lookahead of the Analysis regex: the Recommendations label starts
here, or end of input (the dollar anchor also matches just before a final
newline). -/
def analysisLookahead (rest : List Char) (t : Nat) : Bool :=
  isPrefixList "Recommendations:".toList (rest.drop t) ||
    t == rest.length || rest.drop t == ['\n']

/-- Match of the Analysis group at one position: greedy whitespace tried
longest first, then the lazy dot group tried shortest first, stopping at the
lookahead. -/
def matchAnalysisAt (rest : List Char) : Option (List Char) :=
  let w := (rest.takeWhile fun c => isPySpace c).length
  (List.range (w + 1)).findSome? fun d =>
    let j := w - d
    (List.range rest.length).findSome? fun k0 =>
      let k := k0 + 1
      if j + k ≤ rest.length && analysisLookahead rest (j + k) then
        some ((rest.drop j).take k)
      else none

/-- Leftmost match of the Analysis regex of check_compliance_with_retry. -/
def searchAnalysis : List Char → Option (List Char)
  | [] => none
  | c :: rest =>
    if isPrefixList "Analysis:".toList (c :: rest) then
      match matchAnalysisAt ((c :: rest).drop 9) with
      | some g => some g
      | none => searchAnalysis rest
    else searchAnalysis rest

/-- Match of the Recommendations group at one position: greedy whitespace
tried longest first, then the greedy dot group takes everything to the end
(at least one character is required). -/
def matchRecsAt (rest : List Char) : Option (List Char) :=
  let w := (rest.takeWhile fun c => isPySpace c).length
  (List.range (w + 1)).findSome? fun d =>
    let j := w - d
    if j < rest.length then some (rest.drop j) else none

/-- Leftmost match of the Recommendations regex of
check_compliance_with_retry. -/
def searchRecs : List Char → Option (List Char)
  | [] => none
  | c :: rest =>
    if isPrefixList "Recommendations:".toList (c :: rest) then
      match matchRecsAt ((c :: rest).drop 16) with
      | some g => some g
      | none => searchRecs rest
    else searchRecs rest

/-- The record built by check_compliance_with_retry (the category is added
later by process_policy_chunk). -/
structure OracleResult where
  score : ℚ
  analysis : String
  recommendations : String
deriving DecidableEq

/-- Parsing of the oracle response body inside check_compliance_with_retry:
labelled fields extracted by regex search, each group stripped, with
per-field defaults. -/
def parseResponse (response : String) : OracleResult :=
  { score := match searchScore response.toList with
      | some n => (n : ℚ)
      | none => 0
    analysis := match searchAnalysis response.toList with
      | some g => String.mk (pyStrip g)
      | none => "No analysis provided"
    recommendations := match searchRecs response.toList with
      | some g => String.mk (pyStrip g)
      | none => "No recommendations provided" }

/-- The retry loop of check_compliance_with_retry.  The oracle argument maps
the attempt number to the response text or to the error message of that
attempt (prompt assembly and the external API call are abstracted into it);
remaining counts the loop iterations left, starting at max_retries. -/
def retryLoop (oracle : Nat → Except String String) (maxRetries : Nat) :
    Nat → Nat → OracleResult
  | 0, _ =>
    { score := 0, analysis := "Maximum retries exceeded", recommendations := "System error" }
  | remaining + 1, attempt =>
    match oracle attempt with
    | Except.ok resp => parseResponse resp
    | Except.error e =>
      if attempt = maxRetries - 1 then
        { score := 0, analysis := "Error: " ++ e, recommendations := "Unable to process" }
      else retryLoop oracle maxRetries remaining (attempt + 1)

/-- ComplianceService.check_compliance_with_retry with its default
max_retries of 3. -/
def check_compliance_with_retry (oracle : Nat → Except String String) : OracleResult :=
  retryLoop oracle 3 3 0

/-- Model of rapidfuzz process.extractOne: the highest-scoring candidate,
earlier candidates winning ties; the fuzzy scorer itself is external to the
repository and is passed explicitly. -/
def extractOne (scorer : String → String → ℚ) (query : String) :
    List String → Option (String × ℚ)
  | [] => none
  | c :: cs =>
    some (cs.foldl
      (fun best cand => if scorer query cand > best.2 then (cand, scorer query cand) else best)
      (c, scorer query c))

/-- ComplianceService.find_best_match with the fuzzy scorer passed
explicitly. -/
def find_best_match (scorer : String → String → ℚ) (text : String)
    (candidates : List String) : Option String × ℚ :=
  if candidates = [] then (none, 0)
  else
    match extractOne scorer (preprocess_text text) (candidates.map preprocess_text) with
    | some (bm, sc) => if sc ≥ 50 then (some bm, sc) else (none, 0)
    | none => (none, 0)

/-- Truthiness of the Python value best_match[0] (None or a string). -/
def pyTruthy : Option String → Bool
  | none => false
  | some s => s != ""

/-- The guard of process_policy_chunk deciding whether a match is sent to
the scoring oracle: best_match[0] truthy and best_match[1] strictly greater
than 50. -/
def chunkAccepts (bm : Option String × ℚ) : Bool :=
  pyTruthy bm.1 && bm.2 > 50

/-- Model of str.split on the two-newline separator, used by
process_policy_chunk to form the candidate sections of a chunk: at each
occurrence of the separator the accumulated section is emitted and scanning
resumes after it. -/
def splitBlankAux : List Char → List Char → List (List Char)
  | acc, [] => [acc.reverse]
  | acc, [c] => [(c :: acc).reverse]
  | acc, c :: c2 :: rest =>
    if c = '\n' ∧ c2 = '\n' then acc.reverse :: splitBlankAux [] rest
    else splitBlankAux (c :: acc) (c2 :: rest)

/-- The candidate sections of process_policy_chunk: the chunk split on the
blank-line separator. -/
def chunk_sections (chunk : String) : List String :=
  (splitBlankAux [] chunk.toList).map String.mk

/-- The per-category record appended by process_policy_chunk and consumed by
the consolidation loop of analyze_policy. -/
structure ScoreResult where
  category : String
  score : ℚ
  analysis : String
  recommendations : String
deriving DecidableEq

/-- One assignment of the consolidation loop of analyze_policy: an existing
entry for the category is replaced exactly when the new score is strictly
higher; a new category is appended (the mapping is an insertion-ordered
association list, as a Python dict). -/
def consUpdate : List (String × ScoreResult) → ScoreResult → List (String × ScoreResult)
  | [], r => [(r.category, r)]
  | (c, cur) :: rest, r =>
    if c = r.category then
      (if cur.score < r.score then (c, r) else (c, cur)) :: rest
    else (c, cur) :: consUpdate rest r

/-- The consolidation loop of analyze_policy. -/
def consolidate (rs : List ScoreResult) : List (String × ScoreResult) :=
  rs.foldl consUpdate []

/-- The overall score of analyze_policy: mean of the consolidated scores,
and 0 when no results were produced. -/
def overall_score (rs : List ScoreResult) : ℚ :=
  let fin := (consolidate rs).map fun p => p.2
  if fin = [] then 0 else (fin.map fun r => r.score).sum / fin.length

/-- Lookup in the consolidated association list. -/
def lookupCat (c : String) : List (String × ScoreResult) → Option ScoreResult
  | [] => none
  | (k, v) :: rest => if k = c then some v else lookupCat c rest

/-- Spec-side per-category reduction: a fold keeping the incumbent unless a
strictly higher score arrives, so that the first-seen result wins ties. -/
def bestStep (o : Option ScoreResult) (l : List ScoreResult) : Option ScoreResult :=
  l.foldl
    (fun acc r =>
      match acc with
      | none => some r
      | some a => if a.score < r.score then some r else some a)
    o

def bestOf (l : List ScoreResult) : Option ScoreResult := bestStep none l

/-- Abstract tokenizer interface standing for the external tiktoken encoder
obtained by count_tokens and truncate_to_token_limit. -/
structure Encoding where
  encode : String → List Nat
  decode : List Nat → String

/-- ComplianceService.count_tokens over an explicit encoder. -/
def count_tokens (enc : Encoding) (text : String) : Nat :=
  (enc.encode text).length

/-- ComplianceService.truncate_to_token_limit over an explicit encoder. -/
def truncate_to_token_limit (enc : Encoding) (text : String) (maxTokens : Nat) : String :=
  let tokens := enc.encode text
  if tokens.length > maxTokens then enc.decode (tokens.take maxTokens) else text

/-- Token counter counting the non-whitespace characters; it is additive
across single-space joins and instantiates the abstract token counter in
concrete evaluations. -/
def countNonSpace (s : String) : Nat :=
  (s.toList.filter fun c => !(isPySpace c)).length

/-- Character-code tokenizer instantiating the abstract encoder in concrete
evaluations. -/
def charEncoding : Encoding where
  encode s := s.toList.map Char.toNat
  decode l := String.mk (l.map Char.ofNat)

/-- Absence of whitespace in a chunk (word-level sub-chunks are single
whitespace-free words). -/
def chunkNoSpace (s : String) : Prop := ∀ ch ∈ s.toList, isPySpace ch = false

/-- A chunk within budget, or an oversized single word. -/
def chunkGood (tc : String → Nat) (m : Nat) (c : String) : Prop :=
  tc c ≤ m ∨ chunkNoSpace c

/-- Invariant of the chunking loops: flushed chunks are good, the token
tally bounds the current chunk's count, and the tally is within budget
unless the current chunk is a single word. -/
def chunkInv (tc : String → Nat) (m : Nat) (st : List String × String × Nat) : Prop :=
  (∀ c ∈ st.1, chunkGood tc m c) ∧ tc st.2.1 ≤ st.2.2 ∧ (st.2.2 ≤ m ∨ chunkNoSpace st.2.1)

/-- Absence of newlines in a string. -/
def noNlStr (s : String) : Prop := ∀ ch ∈ s.toList, ch ≠ '\n'

/-- Invariant of the chunking loops for newline-freedom. -/
def noNlInv (st : List String × String × Nat) : Prop :=
  (∀ c ∈ st.1, noNlStr c) ∧ noNlStr st.2.1

/-- Fold invariant: a property preserved by each step holds of the fold. -/
theorem foldlInvariant {α σ : Type} (f : σ → α → σ) (P : σ → Prop) (Q : α → Prop)
    (step : ∀ s a, P s → Q a → P (f s a)) :
    ∀ (l : List α) (s : σ), P s → (∀ a ∈ l, Q a) → P (l.foldl f s) := by
  intro l
  induction l with
  | nil => exact fun s hs _ => hs
  | cons a l ih =>
    intro s hs hq
    exact ih (f s a) (step s a hs (hq a (by simp))) fun b hb => hq b (by simp [hb])

/-- Characters of the whitespace-collapsed text: a space, or a
non-whitespace character of the input. -/
theorem collapseWsAux_chars :
    ∀ (l : List Char) (b : Bool) (ch : Char),
      ch ∈ collapseWsAux b l → ch = ' ' ∨ (ch ∈ l ∧ isPySpace ch = false) := by
  intro l
  induction l with
  | nil => intro b ch h; simp [collapseWsAux] at h
  | cons c rest ih =>
    intro b ch h
    by_cases hc : isPySpace c
    · cases b with
      | true =>
        simp [collapseWsAux, hc] at h
        rcases ih true ch h with h1 | ⟨h2, h3⟩
        · exact Or.inl h1
        · exact Or.inr ⟨by simp [h2], h3⟩
      | false =>
        simp [collapseWsAux, hc] at h
        rcases h with rfl | h2
        · exact Or.inl rfl
        · rcases ih true ch h2 with h1 | ⟨h3, h4⟩
          · exact Or.inl h1
          · exact Or.inr ⟨by simp [h3], h4⟩
    · simp [collapseWsAux, hc] at h
      rcases h with rfl | h2
      · exact Or.inr ⟨by simp, by simpa using hc⟩
      · rcases ih false ch h2 with h1 | ⟨h3, h4⟩
        · exact Or.inl h1
        · exact Or.inr ⟨by simp [h3], h4⟩

/-- The blank-line substitution does nothing to a text without newlines,
for any fuel. -/
theorem subBlankFuel_no_nl :
    ∀ (fuel : Nat) (l : List Char), (∀ ch ∈ l, ch ≠ '\n') → subBlankFuel fuel l = l := by
  intro fuel
  induction fuel with
  | zero => intro l _; rfl
  | succ fuel ih =>
    intro l h
    cases l with
    | nil => rfl
    | cons c rest =>
      have hc : ¬ c = '\n' := h c (by simp)
      simp [subBlankFuel, hc]
      exact ih rest fun ch hch => h ch (by simp [hch])

/-- The blank-line substitution does nothing to a text without newlines. -/
theorem subBlankAux_no_nl :
    ∀ l : List Char, (∀ ch ∈ l, ch ≠ '\n') → subBlankAux l = l := by
  intro l h
  exact subBlankFuel_no_nl l.length l h

/-- Characters of the allow-list substitution output: a space, or an
allow-listed character of the input. -/
theorem subDisallowedAux_chars :
    ∀ (l : List Char) (b : Bool) (ch : Char),
      ch ∈ subDisallowedAux b l → ch = ' ' ∨ (ch ∈ l ∧ isAllowedChar ch = true) := by
  intro l
  induction l with
  | nil => intro b ch h; simp [subDisallowedAux] at h
  | cons c rest ih =>
    intro b ch h
    by_cases hc : isAllowedChar c
    · simp [subDisallowedAux, hc] at h
      rcases h with rfl | h2
      · exact Or.inr ⟨by simp, hc⟩
      · rcases ih false ch h2 with h1 | ⟨h3, h4⟩
        · exact Or.inl h1
        · exact Or.inr ⟨by simp [h3], h4⟩
    · cases b with
      | true =>
        simp [subDisallowedAux, hc] at h
        rcases ih true ch h with h1 | ⟨h3, h4⟩
        · exact Or.inl h1
        · exact Or.inr ⟨by simp [h3], h4⟩
      | false =>
        simp [subDisallowedAux, hc] at h
        rcases h with rfl | h2
        · exact Or.inl rfl
        · rcases ih true ch h2 with h1 | ⟨h3, h4⟩
          · exact Or.inl h1
          · exact Or.inr ⟨by simp [h3], h4⟩

/-- Stripping only removes characters. -/
theorem pyStrip_subset : ∀ (l : List Char) (ch : Char), ch ∈ pyStrip l → ch ∈ l := by
  intro l ch h
  simp only [pyStrip, List.mem_reverse] at h
  have h2 : ch ∈ (l.dropWhile isPySpace).reverse := List.dropWhile_subset _ h
  rw [List.mem_reverse] at h2
  exact List.dropWhile_subset _ h2

/-- Head of a dropWhile output never satisfies the dropped predicate. -/
theorem head?_dropWhile_false {α : Type} {p : α → Bool} :
    ∀ (l : List α) (c : α), (l.dropWhile p).head? = some c → p c = false := by
  intro l
  induction l with
  | nil => intro c h; simp [List.dropWhile] at h
  | cons a l ih =>
    intro c h
    by_cases ha : p a
    · rw [List.dropWhile_cons_of_pos ha] at h
      exact ih c h
    · rw [List.dropWhile_cons_of_neg (by simpa using ha)] at h
      simp only [List.head?_cons, Option.some.injEq] at h
      rw [← h]
      simpa using ha

/-- Trailing element of a dropWhile output is the input's, when present. -/
theorem getLast?_dropWhile {α : Type} {p : α → Bool} :
    ∀ (l : List α) (c : α), (l.dropWhile p).getLast? = some c → l.getLast? = some c := by
  intro l c h
  rcases List.dropWhile_suffix (l := l) p with ⟨t, ht⟩
  have hne : l.dropWhile p ≠ [] := by
    intro hnil
    rw [hnil] at h
    simp at h
  rw [← ht, List.getLast?_append]
  rw [h]
  rfl

/-- The stripped text neither starts nor ends with whitespace. -/
theorem pyStrip_ends :
    ∀ (l : List Char) (c : Char),
      ((pyStrip l).head? = some c → isPySpace c = false) ∧
      ((pyStrip l).getLast? = some c → isPySpace c = false) := by
  intro l c
  constructor
  · intro h
    rw [pyStrip, List.head?_reverse] at h
    have h2 := getLast?_dropWhile _ c h
    rw [List.getLast?_reverse] at h2
    exact head?_dropWhile_false _ c h2
  · intro h
    rw [pyStrip, List.getLast?_reverse] at h
    exact head?_dropWhile_false _ c h

/-- Characters of the normalized text: allow-listed characters of the input,
with every whitespace character replaced by a plain space. -/
theorem preprocess_text_chars :
    ∀ (s : String) (ch : Char), ch ∈ (preprocess_text s).toList →
      isAllowedChar ch = true ∧ (isPySpace ch = true → ch = ' ') := by
  intro s ch h
  have h1 : ch ∈ subDisallowedAux false (subBlankAux (collapseWsAux false s.toList)) :=
    pyStrip_subset _ ch h
  rcases subDisallowedAux_chars _ false ch h1 with rfl | ⟨h2, h3⟩
  · exact ⟨by decide, fun _ => rfl⟩
  · have hnl : ∀ d ∈ collapseWsAux false s.toList, d ≠ '\n' := by
      intro d hd hdn
      rcases collapseWsAux_chars _ false d hd with h4 | ⟨_, h5⟩
      · rw [hdn] at h4; exact absurd h4 (by decide)
      · rw [hdn] at h5; exact absurd h5 (by decide)
    rw [subBlankAux_no_nl _ hnl] at h2
    rcases collapseWsAux_chars _ false ch h2 with rfl | ⟨_, h5⟩
    · exact ⟨by decide, fun _ => rfl⟩
    · exact ⟨h3, fun h6 => absurd h6 (by simp [h5])⟩

/-- C6: the claim that preprocess_text collapses every whitespace run to one
space and every blank-line run to one blank line fails on the code: the
disallowed-character substitution runs after whitespace collapsing and
replaces each disallowed character by a space, so the input below normalizes
to a three-space run — not to a single space, and with no blank line kept. -/
theorem C6_counterexample :
    preprocess_text "x@\n\n@y" = "x   y" ∧
    (preprocess_text "x@\n\n@y").toList = ['x', ' ', ' ', ' ', 'y'] := by
  exact ⟨rfl, rfl⟩

/-- C6 (amended): preprocess_text first replaces each whitespace run
(including every newline and blank line) by one space, then replaces each
run of characters outside the allow-list by one space — which can rebuild
runs of several spaces — and strips the ends; so its output consists of
allow-listed characters only, its only whitespace is the plain space (no
blank line survives), it neither starts nor ends with whitespace, it is a
total function and its result may be empty. -/
theorem C6_normalizer (s : String) :
    (∀ ch ∈ (preprocess_text s).toList, isAllowedChar ch = true) ∧
    (∀ ch ∈ (preprocess_text s).toList, isPySpace ch = true → ch = ' ') ∧
    (∀ c, (preprocess_text s).toList.head? = some c → isPySpace c = false) ∧
    (∀ c, (preprocess_text s).toList.getLast? = some c → isPySpace c = false) ∧
    preprocess_text "" = "" := by
  refine ⟨fun ch h => (preprocess_text_chars s ch h).1,
    fun ch h => (preprocess_text_chars s ch h).2, fun c h => ?_, fun c h => ?_, rfl⟩
  · exact (pyStrip_ends _ c).1 h
  · exact (pyStrip_ends _ c).2 h

/-- C6 witness: concrete consequences of the amended normalizer theorem at
one input. -/
theorem C6_normalizer_witness : isAllowedChar 'a' = true ∧ isPySpace 'a' = false := by
  have h := C6_normalizer "a@b"
  exact ⟨h.1 'a' (by decide), h.2.2.1 'a' (by decide)⟩

/-- C9: split_into_chunks applied to the empty string yields the empty chunk
list (for every token counter and budget), not a list holding one empty
chunk. -/
theorem C9_empty_input (tc : String → Nat) (m : Nat) : split_into_chunks tc "" m = [] := by
  by_cases h : tc "" > m <;>
    simp [split_into_chunks, splitSentences, splitSentAux, splitSentFuel, sentStep, wordFallback,
      pysplit, pysplitAux, h]

/-- Words produced by the whitespace split contain no whitespace. -/
theorem pysplitAux_no_space :
    ∀ (l acc : List Char), (∀ ch ∈ acc, isPySpace ch = false) →
      ∀ w ∈ pysplitAux acc l, ∀ ch ∈ w, isPySpace ch = false := by
  intro l
  induction l with
  | nil =>
    intro acc hacc w hw ch hch
    by_cases h : acc = []
    · simp [pysplitAux, h] at hw
    · simp [pysplitAux, h] at hw
      subst hw
      exact hacc ch (by simpa using hch)
  | cons c rest ih =>
    intro acc hacc w hw ch hch
    by_cases hc : isPySpace c
    · by_cases h : acc = []
      · simp [pysplitAux, hc, h] at hw
        exact ih [] (by simp) w hw ch hch
      · simp [pysplitAux, hc, h] at hw
        rcases hw with rfl | hw2
        · exact hacc ch (by simpa using hch)
        · exact ih [] (by simp) w hw2 ch hch
    · simp [pysplitAux, hc] at hw
      refine ih (c :: acc) ?_ w hw ch hch
      intro d hd
      rcases List.mem_cons.mp hd with rfl | hd2
      · simpa using hc
      · exact hacc d hd2

/-- Words of the word-level fallback contain no whitespace. -/
theorem pysplit_no_space (s : String) : ∀ w ∈ pysplit s, chunkNoSpace w := by
  intro w hw ch hch
  simp only [pysplit, List.mem_map] at hw
  rcases hw with ⟨wl, hwl, rfl⟩
  exact pysplitAux_no_space s.toList [] (by simp) wl hwl ch hch

/-- Flush branch of the word-level fallback step. -/
theorem wordStep_pos (tc : String → Nat) (m : Nat) (st : List String × String × Nat)
    (w : String) (h : st.2.2 + tc w > m) :
    wordStep tc m st w = (st.1 ++ [st.2.1], w, tc w) := by
  simp [wordStep, h]

/-- Accumulate branch of the word-level fallback step. -/
theorem wordStep_neg (tc : String → Nat) (m : Nat) (st : List String × String × Nat)
    (w : String) (h : ¬ st.2.2 + tc w > m) :
    wordStep tc m st w =
      (st.1, if st.2.1 = "" then w else st.2.1 ++ " " ++ w, st.2.2 + tc w) := by
  simp [wordStep, h]

/-- Word-fallback branch of the sentence step. -/
theorem sentStep_fallback (tc : String → Nat) (m : Nat) (st : List String × String × Nat)
    (s : String) (h : tc s > m) :
    sentStep tc m st s =
      (st.1 ++ (wordFallback tc m (pysplit s)).1 ++
        (if (wordFallback tc m (pysplit s)).2.1 = "" then []
         else [(wordFallback tc m (pysplit s)).2.1]), st.2.1, st.2.2) := by
  simp [sentStep, h]

/-- Flush branch of the sentence step. -/
theorem sentStep_flush (tc : String → Nat) (m : Nat) (st : List String × String × Nat)
    (s : String) (h1 : ¬ tc s > m) (h2 : st.2.2 + tc s > m) :
    sentStep tc m st s = (st.1 ++ [st.2.1], s, tc s) := by
  simp [sentStep, h1, h2]

/-- Accumulate branch of the sentence step. -/
theorem sentStep_acc (tc : String → Nat) (m : Nat) (st : List String × String × Nat)
    (s : String) (h1 : ¬ tc s > m) (h2 : ¬ st.2.2 + tc s > m) :
    sentStep tc m st s =
      (st.1, if st.2.1 = "" then s else st.2.1 ++ " " ++ s, st.2.2 + tc s) := by
  simp [sentStep, h1, h2]

/-- The current chunk of a state satisfying the invariant is itself good. -/
theorem chunkInv_cur_good {tc : String → Nat} {m : Nat} {st : List String × String × Nat}
    (h : chunkInv tc m st) : chunkGood tc m st.2.1 := by
  rcases h.2.2 with h3 | h3
  · exact Or.inl (le_trans h.2.1 h3)
  · exact Or.inr h3

/-- The word-level fallback step preserves the chunk invariant. -/
theorem wordStep_inv (tc : String → Nat) (m : Nat)
    (hsub : ∀ a b : String, a ≠ "" → tc (a ++ " " ++ b) ≤ tc a + tc b) :
    ∀ st w, chunkInv tc m st → chunkNoSpace w → chunkInv tc m (wordStep tc m st w) := by
  intro st w hst hw
  obtain ⟨h1, h2, h3⟩ := hst
  by_cases hb : st.2.2 + tc w > m
  · rw [wordStep_pos tc m st w hb]
    refine ⟨?_, le_refl _, Or.inr hw⟩
    intro c hc
    rcases List.mem_append.mp hc with hc1 | hc2
    · exact h1 c hc1
    · rw [List.mem_singleton.mp hc2]
      exact chunkInv_cur_good ⟨h1, h2, h3⟩
  · rw [wordStep_neg tc m st w hb]
    refine ⟨h1, ?_, Or.inl (by show st.2.2 + tc w ≤ m; omega)⟩
    by_cases he : st.2.1 = ""
    · simp only [he, if_true]
      exact Nat.le_add_left _ _
    · simp only [he, if_false]
      exact le_trans (hsub st.2.1 w he) (by omega)

/-- The word-level fallback establishes the chunk invariant from whitespace-free
words. -/
theorem wordFallback_inv (tc : String → Nat) (m : Nat) (h0 : tc "" = 0)
    (hsub : ∀ a b : String, a ≠ "" → tc (a ++ " " ++ b) ≤ tc a + tc b)
    (ws : List String) (hws : ∀ w ∈ ws, chunkNoSpace w) :
    chunkInv tc m (wordFallback tc m ws) :=
  foldlInvariant (wordStep tc m) (chunkInv tc m) chunkNoSpace (wordStep_inv tc m hsub)
    ws ([], "", 0) ⟨by simp, by simp [h0], Or.inl (Nat.zero_le m)⟩ hws

/-- The sentence step preserves the chunk invariant. -/
theorem sentStep_inv (tc : String → Nat) (m : Nat) (h0 : tc "" = 0)
    (hsub : ∀ a b : String, a ≠ "" → tc (a ++ " " ++ b) ≤ tc a + tc b) :
    ∀ st s, chunkInv tc m st → chunkInv tc m (sentStep tc m st s) := by
  intro st s hst
  obtain ⟨h1, h2, h3⟩ := hst
  by_cases hs : tc s > m
  · rw [sentStep_fallback tc m st s hs]
    have hfb := wordFallback_inv tc m h0 hsub (pysplit s) (pysplit_no_space s)
    refine ⟨?_, h2, h3⟩
    intro c hc
    rcases List.mem_append.mp hc with hc1 | hc2
    · rcases List.mem_append.mp hc1 with hc3 | hc4
      · exact h1 c hc3
      · exact hfb.1 c hc4
    · by_cases he : (wordFallback tc m (pysplit s)).2.1 = ""
      · simp [he] at hc2
      · simp only [he, if_false, List.mem_singleton] at hc2
        rw [hc2]
        exact chunkInv_cur_good hfb
  · by_cases hb : st.2.2 + tc s > m
    · rw [sentStep_flush tc m st s hs hb]
      refine ⟨?_, le_refl _, Or.inl (by show tc s ≤ m; omega)⟩
      intro c hc
      rcases List.mem_append.mp hc with hc1 | hc2
      · exact h1 c hc1
      · rw [List.mem_singleton.mp hc2]
        exact chunkInv_cur_good ⟨h1, h2, h3⟩
    · rw [sentStep_acc tc m st s hs hb]
      refine ⟨h1, ?_, Or.inl (by show st.2.2 + tc s ≤ m; omega)⟩
      by_cases he : st.2.1 = ""
      · simp only [he, if_true]
        exact Nat.le_add_left _ _
      · simp only [he, if_false]
        exact le_trans (hsub st.2.1 s he) (by omega)

/-- C1 (amended): under a token counter that gives the empty string no
tokens and is subadditive across single-space joins, every chunk produced by
split_into_chunks is within the budget except possibly a chunk that is a
single whitespace-free word (an oversized word of the word-level fallback);
the original claim that every chunk, including word-fallback sub-chunks,
stays within max_tokens is refuted by C1_counterexample. -/
theorem C1_chunk_token_bound (tc : String → Nat) (m : Nat)
    (h0 : tc "" = 0)
    (hsub : ∀ a b : String, a ≠ "" → tc (a ++ " " ++ b) ≤ tc a + tc b)
    (text : String) :
    ∀ c ∈ split_into_chunks tc text m,
      tc c ≤ m ∨ ∀ ch ∈ c.toList, isPySpace ch = false := by
  intro c hc
  have hP := foldlInvariant (sentStep tc m) (chunkInv tc m) (fun _ => True)
    (fun st s p _ => sentStep_inv tc m h0 hsub st s p)
    (splitSentences text) ([], "", 0)
    ⟨by simp, by simp [h0], Or.inl (Nat.zero_le m)⟩ (fun _ _ => trivial)
  simp only [split_into_chunks] at hc
  rcases List.mem_append.mp hc with hc1 | hc2
  · exact hP.1 c hc1
  · by_cases he : ((splitSentences text).foldl (sentStep tc m) ([], "", 0)).2.1 = ""
    · simp [he] at hc2
    · simp only [he, if_false, List.mem_singleton] at hc2
      rw [hc2]
      exact chunkInv_cur_good hP

/-- C1 counterexample: with the non-whitespace-character token counter
(which is exactly additive across single-space joins and gives the empty
string no tokens), the single-word sentence below exceeds the budget of 1,
and the word-level fallback emits it unchanged as a chunk of 2 tokens. -/
theorem C1_counterexample :
    "aa" ∈ split_into_chunks countNonSpace "aa" 1 ∧ 1 < countNonSpace "aa" := by
  decide

/-- Exact additivity of the non-whitespace token counter across single-space
joins. -/
theorem countNonSpace_join (a b : String) :
    countNonSpace (a ++ " " ++ b) = countNonSpace a + countNonSpace b := by
  simp only [countNonSpace, String.toList, String.data_append]
  rw [List.filter_append, List.filter_append, List.length_append, List.length_append]
  simp [isPySpace]

/-- C1 witness: the amended chunk bound applied to the non-whitespace token
counter at one concrete text. -/
theorem C1_chunk_token_bound_witness :
    countNonSpace "" = 0 ∧
    (∀ a b : String, a ≠ "" → countNonSpace (a ++ " " ++ b) ≤ countNonSpace a + countNonSpace b) ∧
    ∀ c ∈ split_into_chunks countNonSpace "hi there. ok" 5,
      countNonSpace c ≤ 5 ∨ ∀ ch ∈ c.toList, isPySpace ch = false := by
  refine ⟨rfl, fun a b _ => le_of_eq (countNonSpace_join a b), ?_⟩
  exact C1_chunk_token_bound countNonSpace 5 rfl
    (fun a b _ => le_of_eq (countNonSpace_join a b)) "hi there. ok"

/-- The normalized text contains no newline: every whitespace character of
preprocess_text's output is a plain space. -/
theorem preprocess_text_no_nl (t : String) : noNlStr (preprocess_text t) := by
  intro ch hch hn
  have h := (preprocess_text_chars t ch hch).2
  rw [hn] at h
  exact absurd (h (by decide)) (by decide)

/-- Characters of a sentence come from the splitter's state. -/
theorem splitSentFuel_chars :
    ∀ (fuel : Nat) (acc l sent : List Char), sent ∈ splitSentFuel fuel acc l →
      ∀ ch ∈ sent, ch ∈ acc ∨ ch ∈ l := by
  intro fuel
  induction fuel with
  | zero =>
    intro acc l sent hs ch hch
    simp only [splitSentFuel, List.mem_singleton] at hs
    subst hs
    rcases List.mem_append.mp hch with h | h
    · exact Or.inl (by simpa using h)
    · exact Or.inr h
  | succ fuel ih =>
    intro acc l sent hs ch hch
    cases l with
    | nil =>
      simp only [splitSentFuel, List.mem_singleton] at hs
      subst hs
      exact Or.inl (by simpa using hch)
    | cons c rest =>
      by_cases hg : (isPySpace c && headIsPunct acc) = true
      · simp only [splitSentFuel, hg, if_true, List.mem_cons] at hs
        rcases hs with rfl | hs2
        · exact Or.inl (by simpa using hch)
        · cases hdw : rest.dropWhile (fun d => isPySpace d) with
          | nil =>
            rw [hdw] at hs2
            simp only [List.mem_singleton] at hs2
            subst hs2
            simp at hch
          | cons d ds =>
            rw [hdw] at hs2
            have hsub := ih [d] ds sent hs2 ch hch
            have hmem : ch ∈ rest.dropWhile (fun d => isPySpace d) := by
              rw [hdw]
              rcases hsub with h | h
              · simp only [List.mem_singleton] at h
                rw [h]
                simp
              · simp [h]
            exact Or.inr (by simp [List.dropWhile_subset _ hmem])
      · simp only [splitSentFuel, hg, if_false] at hs
        rcases ih (c :: acc) rest sent hs ch hch with h | h
        · rcases List.mem_cons.mp h with rfl | h2
          · exact Or.inr (by simp)
          · exact Or.inl h2
        · exact Or.inr (by simp [h])

/-- Sentences of a newline-free text are newline-free. -/
theorem splitSentences_no_nl (s : String) (h : noNlStr s) :
    ∀ sent ∈ splitSentences s, noNlStr sent := by
  intro sent hsent ch hch hn
  simp only [splitSentences, splitSentAux, List.mem_map] at hsent
  rcases hsent with ⟨sl, hsl, rfl⟩
  rcases splitSentFuel_chars _ [] s.toList sl hsl ch hch with h1 | h1
  · simp at h1
  · exact h ch h1 hn

/-- Characters of a word come from the splitter's state. -/
theorem pysplitAux_chars :
    ∀ (l acc w : List Char), w ∈ pysplitAux acc l → ∀ ch ∈ w, ch ∈ acc ∨ ch ∈ l := by
  intro l
  induction l with
  | nil =>
    intro acc w hw ch hch
    by_cases h : acc = []
    · simp [pysplitAux, h] at hw
    · simp only [pysplitAux, h, if_false, List.mem_singleton] at hw
      subst hw
      exact Or.inl (by simpa using hch)
  | cons c rest ih =>
    intro acc w hw ch hch
    by_cases hc : isPySpace c
    · by_cases h : acc = []
      · simp only [pysplitAux, hc, h, if_true] at hw
        rcases ih [] w hw ch hch with h1 | h1
        · simp at h1
        · exact Or.inr (by simp [h1])
      · simp only [pysplitAux, hc, h, if_true, if_false, List.mem_cons] at hw
        rcases hw with rfl | hw2
        · exact Or.inl (by simpa using hch)
        · rcases ih [] w hw2 ch hch with h1 | h1
          · simp at h1
          · exact Or.inr (by simp [h1])
    · simp only [pysplitAux, hc, if_false] at hw
      rcases ih (c :: acc) w hw ch hch with h1 | h1
      · rcases List.mem_cons.mp h1 with rfl | h2
        · exact Or.inr (by simp)
        · exact Or.inl h2
      · exact Or.inr (by simp [h1])

/-- Words of a newline-free sentence are newline-free. -/
theorem pysplit_no_nl (s : String) (h : noNlStr s) : ∀ w ∈ pysplit s, noNlStr w := by
  intro w hw ch hch hn
  simp only [pysplit, List.mem_map] at hw
  rcases hw with ⟨wl, hwl, rfl⟩
  rcases pysplitAux_chars s.toList [] wl hwl ch hch with h1 | h1
  · simp at h1
  · exact h ch h1 hn

/-- Joining with a single space preserves newline-freedom. -/
theorem noNlStr_join (a b : String) (ha : noNlStr a) (hb : noNlStr b) :
    noNlStr (a ++ " " ++ b) := by
  intro ch hch
  simp only [String.toList, String.data_append] at hch
  rcases List.mem_append.mp hch with h1 | h2
  · rcases List.mem_append.mp h1 with h3 | h4
    · exact ha ch h3
    · simp only [List.mem_singleton] at h4
      rw [h4]
      decide
  · exact hb ch h2

/-- The word-level fallback step preserves newline-freedom. -/
theorem wordStep_no_nl (tc : String → Nat) (m : Nat) :
    ∀ st w, noNlInv st → noNlStr w → noNlInv (wordStep tc m st w) := by
  intro st w hst hw
  by_cases hb : st.2.2 + tc w > m
  · rw [wordStep_pos tc m st w hb]
    refine ⟨?_, hw⟩
    intro c hc
    rcases List.mem_append.mp hc with h1 | h2
    · exact hst.1 c h1
    · rw [List.mem_singleton.mp h2]
      exact hst.2
  · rw [wordStep_neg tc m st w hb]
    refine ⟨hst.1, ?_⟩
    by_cases he : st.2.1 = ""
    · simpa [he] using hw
    · simpa [he] using noNlStr_join st.2.1 w hst.2 hw

/-- The sentence step preserves newline-freedom. -/
theorem sentStep_no_nl (tc : String → Nat) (m : Nat) :
    ∀ st s, noNlInv st → noNlStr s → noNlInv (sentStep tc m st s) := by
  intro st s hst hs
  by_cases hg : tc s > m
  · rw [sentStep_fallback tc m st s hg]
    have hfb : noNlInv (wordFallback tc m (pysplit s)) :=
      foldlInvariant (wordStep tc m) noNlInv noNlStr (wordStep_no_nl tc m)
        (pysplit s) ([], "", 0) ⟨by simp, fun ch hch => by simp at hch⟩ (pysplit_no_nl s hs)
    refine ⟨?_, hst.2⟩
    intro c hc
    rcases List.mem_append.mp hc with h1 | h2
    · rcases List.mem_append.mp h1 with h3 | h4
      · exact hst.1 c h3
      · exact hfb.1 c h4
    · by_cases he : (wordFallback tc m (pysplit s)).2.1 = ""
      · simp [he] at h2
      · simp only [he, if_false, List.mem_singleton] at h2
        rw [h2]
        exact hfb.2
  · by_cases hb : st.2.2 + tc s > m
    · rw [sentStep_flush tc m st s hg hb]
      refine ⟨?_, hs⟩
      intro c hc
      rcases List.mem_append.mp hc with h1 | h2
      · exact hst.1 c h1
      · rw [List.mem_singleton.mp h2]
        exact hst.2
    · rw [sentStep_acc tc m st s hg hb]
      refine ⟨hst.1, ?_⟩
      by_cases he : st.2.1 = ""
      · simpa [he] using hs
      · simpa [he] using noNlStr_join st.2.1 s hst.2 hs

/-- Chunks of a newline-free text are newline-free. -/
theorem split_into_chunks_no_nl (tc : String → Nat) (m : Nat) (text : String)
    (h : noNlStr text) : ∀ c ∈ split_into_chunks tc text m, noNlStr c := by
  intro c hc
  have hP := foldlInvariant (sentStep tc m) noNlInv noNlStr (sentStep_no_nl tc m)
    (splitSentences text) ([], "", 0) ⟨by simp, fun ch hch => by simp at hch⟩
    (splitSentences_no_nl text h)
  simp only [split_into_chunks] at hc
  rcases List.mem_append.mp hc with hc1 | hc2
  · exact hP.1 c hc1
  · by_cases he : ((splitSentences text).foldl (sentStep tc m) ([], "", 0)).2.1 = ""
    · simp [he] at hc2
    · simp only [he, if_false, List.mem_singleton] at hc2
      rw [hc2]
      exact hP.2

/-- Splitting a newline-free character list on the blank-line separator
yields a single piece. -/
theorem splitBlankAux_no_nl_eq :
    ∀ (l acc : List Char), (∀ ch ∈ l, ch ≠ '\n') → splitBlankAux acc l = [acc.reverse ++ l] := by
  intro l
  induction l with
  | nil => intro acc _; simp [splitBlankAux]
  | cons c rest ih =>
    intro acc h
    have hc : c ≠ '\n' := h c (by simp)
    cases rest with
    | nil => simp [splitBlankAux]
    | cons c2 rest2 =>
      have hcond : ¬ (c = '\n' ∧ c2 = '\n') := fun hx => hc hx.1
      simp only [splitBlankAux, hcond, if_false]
      rw [ih (c :: acc) fun ch hch => h ch (by simp [hch])]
      simp

/-- A newline-free chunk splits into the single candidate section that is
the chunk itself. -/
theorem chunk_sections_no_nl (chunk : String) (h : noNlStr chunk) :
    chunk_sections chunk = [chunk] := by
  simp only [chunk_sections]
  rw [splitBlankAux_no_nl_eq chunk.toList [] h]
  rfl

/-- C10: every chunk handed to process_policy_chunk by analyze_policy comes
from the normalized text, which contains no newline, so splitting the chunk
on blank lines yields exactly the singleton candidate list holding the whole
chunk — the list passed to find_best_match. -/
theorem C10_singleton_sections (tc : String → Nat) (m : Nat) (t : String) :
    ∀ chunk ∈ split_into_chunks tc (preprocess_text t) m,
      chunk_sections chunk = [chunk] := by
  intro chunk hc
  exact chunk_sections_no_nl chunk
    (split_into_chunks_no_nl tc m (preprocess_text t) (preprocess_text_no_nl t) chunk hc)

/-- C10 witness: the singleton-candidate property at one concrete document. -/
theorem C10_singleton_sections_witness : chunk_sections "hi" = ["hi"] := by
  exact C10_singleton_sections countNonSpace 10 "hi" "hi" (by decide)

/-- Effect of one consolidation assignment on a category lookup. -/
theorem lookupCat_consUpdate (m : List (String × ScoreResult)) (r : ScoreResult) (c : String) :
    lookupCat c (consUpdate m r) =
      if r.category = c then
        match lookupCat c m with
        | none => some r
        | some a => if a.score < r.score then some r else some a
      else lookupCat c m := by
  induction m with
  | nil => by_cases h : r.category = c <;> simp [consUpdate, lookupCat, h]
  | cons kv rest ih =>
    obtain ⟨k, v⟩ := kv
    by_cases hk : k = r.category
    · subst hk
      by_cases hc : r.category = c
      · subst hc
        by_cases hs : v.score < r.score <;> simp [consUpdate, lookupCat, hs]
      · by_cases hs : v.score < r.score <;> simp [consUpdate, lookupCat, hs, hc]
    · have hne : consUpdate ((k, v) :: rest) r = (k, v) :: consUpdate rest r := by
        simp [consUpdate, hk]
      rw [hne]
      by_cases hc : k = c
      · have hr : ¬ (r.category = c) := by rw [← hc]; exact fun hx => hk hx.symm
        simp [lookupCat, hc, hr]
      · simp [lookupCat, hc, ih]

/-- Unfolding of the per-category reduction over a cons. -/
theorem bestStep_cons (o : Option ScoreResult) (r : ScoreResult) (l : List ScoreResult) :
    bestStep o (r :: l) =
      bestStep
        (match o with
         | none => some r
         | some a => if a.score < r.score then some r else some a) l := rfl

/-- A category lookup of the consolidation fold is the per-category
reduction of the results of that category. -/
theorem lookupCat_foldl (rs : List ScoreResult) :
    ∀ (m : List (String × ScoreResult)) (c : String),
      lookupCat c (rs.foldl consUpdate m) =
        bestStep (lookupCat c m) (rs.filter fun r => r.category == c) := by
  induction rs with
  | nil => intro m c; rfl
  | cons r rs ih =>
    intro m c
    rw [List.foldl_cons, ih (consUpdate m r) c]
    by_cases hc : r.category = c
    · have hf : (r :: rs).filter (fun x => x.category == c) =
          r :: rs.filter (fun x => x.category == c) := by
        simp [List.filter_cons, hc]
      rw [hf, bestStep_cons]
      congr 1
      rw [lookupCat_consUpdate]
      simp [hc]
    · have hf : (r :: rs).filter (fun x => x.category == c) =
          rs.filter (fun x => x.category == c) := by
        simp [List.filter_cons, hc]
      rw [hf]
      congr 1
      rw [lookupCat_consUpdate]
      simp [hc]

/-- A category lookup of the consolidated mapping is the per-category
reduction of that category's results. -/
theorem lookupCat_consolidate (rs : List ScoreResult) (c : String) :
    lookupCat c (consolidate rs) = bestOf (rs.filter fun r => r.category == c) := by
  simpa [consolidate, bestOf, lookupCat] using lookupCat_foldl rs [] c

/-- Effect of one consolidation assignment on the key list. -/
theorem consUpdate_keys (m : List (String × ScoreResult)) (r : ScoreResult) :
    (consUpdate m r).map Prod.fst =
      if r.category ∈ m.map Prod.fst then m.map Prod.fst
      else m.map Prod.fst ++ [r.category] := by
  induction m with
  | nil => simp [consUpdate]
  | cons kv rest ih =>
    obtain ⟨k, v⟩ := kv
    by_cases hk : k = r.category
    · subst hk
      by_cases hs : v.score < r.score <;> simp [consUpdate, hs]
    · have hk2 : ¬ (r.category = k) := fun hx => hk hx.symm
      by_cases hm : r.category ∈ rest.map Prod.fst <;>
        simp [consUpdate, hk, hk2, ih, hm]

/-- The consolidated mapping holds at most one entry per category. -/
theorem consolidate_keys_nodup (rs : List ScoreResult) :
    ((consolidate rs).map Prod.fst).Nodup := by
  refine foldlInvariant consUpdate (fun m => (m.map Prod.fst).Nodup) (fun _ => True)
    ?_ rs [] (by simp) (fun _ _ => trivial)
  intro m r hm _
  rw [consUpdate_keys]
  by_cases hmem : r.category ∈ m.map Prod.fst
  · simp [hmem, hm]
  · simp [hmem, hm, List.nodup_append]

/-- The per-category reduction returns a member whose score dominates the
fold's inputs, first-seen winning ties. -/
theorem bestStep_spec :
    ∀ (l : List ScoreResult) (o : Option ScoreResult) (r : ScoreResult),
      bestStep o l = some r →
        (o = some r ∨ r ∈ l) ∧ (∀ a, o = some a → a.score ≤ r.score) ∧
          ∀ x ∈ l, x.score ≤ r.score := by
  intro l
  induction l with
  | nil =>
    intro o r h
    have ho : o = some r := h
    refine ⟨Or.inl ho, fun a ha => ?_, fun x hx => by simp at hx⟩
    rw [ho] at ha
    rw [← Option.some.inj ha]
  | cons x l ih =>
    intro o r h
    rw [bestStep_cons] at h
    cases o with
    | none =>
      obtain ⟨hsrc, hover, hlist⟩ := ih (some x) r h
      refine ⟨?_, fun a ha => by simp at ha, ?_⟩
      · rcases hsrc with h1 | h1
        · exact Or.inr (by rw [← Option.some.inj h1]; exact List.mem_cons_self x l)
        · exact Or.inr (by simp [h1])
      · intro y hy
        rcases List.mem_cons.mp hy with rfl | h2
        · exact hover y rfl
        · exact hlist y h2
    | some a =>
      rw [show (match some a with
            | none => some x
            | some a => if a.score < x.score then some x else some a) =
          (if a.score < x.score then some x else some a) from rfl] at h
      by_cases hs : a.score < x.score
      · rw [if_pos hs] at h
        obtain ⟨hsrc, hover, hlist⟩ := ih (some x) r h
        refine ⟨?_, ?_, ?_⟩
        · rcases hsrc with h1 | h1
          · exact Or.inr (by rw [← Option.some.inj h1]; exact List.mem_cons_self x l)
          · exact Or.inr (by simp [h1])
        · intro b hb
          rw [← Option.some.inj hb]
          exact le_trans (le_of_lt hs) (hover x rfl)
        · intro y hy
          rcases List.mem_cons.mp hy with rfl | h2
          · exact hover y rfl
          · exact hlist y h2
      · rw [if_neg hs] at h
        obtain ⟨hsrc, hover, hlist⟩ := ih (some a) r h
        refine ⟨?_, ?_, ?_⟩
        · rcases hsrc with h1 | h1
          · exact Or.inl h1
          · exact Or.inr (by simp [h1])
        · intro b hb
          rw [← Option.some.inj hb]
          exact hover a rfl
        · intro y hy
          rcases List.mem_cons.mp hy with rfl | h2
          · exact le_trans (le_of_not_lt hs) (hover a rfl)
          · exact hlist y h2

/-- The per-category reduction of a list returns one of its members, with
the maximal score. -/
theorem bestOf_spec (l : List ScoreResult) (r : ScoreResult) (h : bestOf l = some r) :
    r ∈ l ∧ ∀ x ∈ l, x.score ≤ r.score := by
  obtain ⟨hsrc, _, hlist⟩ := bestStep_spec l none r h
  rcases hsrc with h1 | h1
  · exact absurd h1 (by simp)
  · exact ⟨h1, hlist⟩

/-- C2: consolidation keeps at most one entry per category; each category's
entry is the per-category reduction in which an entry is replaced only by a
later result with a strictly higher score (so the first-seen result wins
ties), hence a member of the inputs with that category's maximal score; the
overall score is the arithmetic mean of the consolidated scores, and an
empty consolidated set — in particular an empty input — gives the empty
mapping and overall score 0. -/
theorem C2_consolidation (rs : List ScoreResult) :
    ((consolidate rs).map Prod.fst).Nodup ∧
    (∀ c, lookupCat c (consolidate rs) = bestOf (rs.filter fun r => r.category == c)) ∧
    (∀ c r, lookupCat c (consolidate rs) = some r →
      r ∈ rs ∧ r.category = c ∧ ∀ x ∈ rs, x.category = c → x.score ≤ r.score) ∧
    (consolidate rs ≠ [] →
      overall_score rs * ((consolidate rs).length : ℚ) =
        ((consolidate rs).map fun p => p.2.score).sum) ∧
    (consolidate rs = [] → overall_score rs = 0) ∧
    consolidate ([] : List ScoreResult) = [] ∧ overall_score [] = 0 := by
  refine ⟨consolidate_keys_nodup rs, lookupCat_consolidate rs, ?_, ?_, ?_, rfl, rfl⟩
  · intro c r h
    rw [lookupCat_consolidate rs c] at h
    obtain ⟨hmem, hmax⟩ := bestOf_spec _ r h
    have hm2 := List.mem_filter.mp hmem
    refine ⟨hm2.1, by simpa using hm2.2, ?_⟩
    intro x hx hxc
    exact hmax x (List.mem_filter.mpr ⟨hx, by simp [hxc]⟩)
  · intro hne
    have hnil : ((consolidate rs).map fun p => p.2) ≠ [] := by simpa using hne
    have hl : ((consolidate rs).length : ℚ) ≠ 0 := by
      have h2 : (consolidate rs).length ≠ 0 := by
        simpa [List.length_eq_zero] using hne
      exact_mod_cast h2
    simp only [overall_score, if_neg hnil, List.length_map, List.map_map]
    rw [div_mul_cancel₀ _ hl]
    rfl
  · intro hnil
    simp [overall_score, hnil]

/-- C2 witness: consolidation at one concrete result list — the first-seen
result wins the tie within its category, and the mean property holds. -/
theorem C2_consolidation_witness :
    lookupCat "A" (consolidate [⟨"A", 10, "", ""⟩, ⟨"A", 10, "x", ""⟩, ⟨"B", 30, "", ""⟩]) =
      some ⟨"A", 10, "", ""⟩ ∧
    overall_score [⟨"A", 10, "", ""⟩, ⟨"A", 10, "x", ""⟩, ⟨"B", 30, "", ""⟩] *
      ((consolidate [⟨"A", 10, "", ""⟩, ⟨"A", 10, "x", ""⟩, ⟨"B", 30, "", ""⟩]).length : ℚ) =
      ((consolidate [⟨"A", 10, "", ""⟩, ⟨"A", 10, "x", ""⟩, ⟨"B", 30, "", ""⟩]).map
        fun p => p.2.score).sum := by
  have h := C2_consolidation [⟨"A", 10, "", ""⟩, ⟨"A", 10, "x", ""⟩, ⟨"B", 30, "", ""⟩]
  refine ⟨?_, h.2.2.2.1 (by decide)⟩
  rw [h.2.1 "A"]
  decide

/-- C8: on a successful oracle call the three labelled fields are extracted
by search, and each missing field degrades to its safe default — score 0,
a fixed analysis placeholder and a fixed recommendations placeholder — while
a found field yields the parsed number or the stripped matched group; the
parser is a total function and never fails. -/
theorem C8_parse_defaults (resp : String) :
    ((searchScore resp.toList = none → (parseResponse resp).score = 0) ∧
      ∀ n, searchScore resp.toList = some n → (parseResponse resp).score = (n : ℚ)) ∧
    ((searchAnalysis resp.toList = none →
        (parseResponse resp).analysis = "No analysis provided") ∧
      ∀ g, searchAnalysis resp.toList = some g →
        (parseResponse resp).analysis = String.mk (pyStrip g)) ∧
    ((searchRecs resp.toList = none →
        (parseResponse resp).recommendations = "No recommendations provided") ∧
      ∀ g, searchRecs resp.toList = some g →
        (parseResponse resp).recommendations = String.mk (pyStrip g)) := by
  refine ⟨⟨fun h => ?_, fun n h => ?_⟩, ⟨fun h => ?_, fun g h => ?_⟩,
    ⟨fun h => ?_, fun g h => ?_⟩⟩
  · have h2 : searchScore resp.data = none := h
    simp [parseResponse, h2]
  · have h2 : searchScore resp.data = some n := h
    simp [parseResponse, h2]
  · have h2 : searchAnalysis resp.data = none := h
    simp [parseResponse, h2]
  · have h2 : searchAnalysis resp.data = some g := h
    simp [parseResponse, h2]
  · have h2 : searchRecs resp.data = none := h
    simp [parseResponse, h2]
  · have h2 : searchRecs resp.data = some g := h
    simp [parseResponse, h2]

/-- C8 witness: a response with none of the labels present degrades to all
three defaults. -/
theorem C8_parse_defaults_witness :
    (parseResponse "hello").score = 0 ∧
    (parseResponse "hello").analysis = "No analysis provided" ∧
    (parseResponse "hello").recommendations = "No recommendations provided" := by
  have h := C8_parse_defaults "hello"
  exact ⟨h.1.1 (by decide), h.2.1.1 (by decide), h.2.2.1 (by decide)⟩

/-- The parsed score is never negative: it is a natural number cast, or the
default 0. -/
theorem parseResponse_score_nonneg (resp : String) : 0 ≤ (parseResponse resp).score := by
  cases h : searchScore resp.data <;> simp [parseResponse, h]

/-- Every outcome of the retry loop carries a nonnegative score. -/
theorem retryLoop_score_nonneg (oracle : Nat → Except String String) (maxR : Nat) :
    ∀ remaining attempt, 0 ≤ (retryLoop oracle maxR remaining attempt).score := by
  intro remaining
  induction remaining with
  | zero => intro attempt; simp [retryLoop]
  | succ rem ih =>
    intro attempt
    cases ho : oracle attempt with
    | ok r =>
      simp only [retryLoop, ho]
      exact parseResponse_score_nonneg r
    | error e =>
      by_cases hl : attempt = maxR - 1
      · subst hl
        simp [retryLoop, ho]
      · simp only [retryLoop, ho, hl, if_false]
        exact ih (attempt + 1)

/-- C3 (amended): the score returned by check_compliance_with_retry is
always nonnegative — the digit-only regex and the error defaults allow no
negative value — but it is not clamped above: whatever integer follows the
Score label is returned as is, so it can exceed 100 (see
C3_counterexample). -/
theorem C3_score_nonneg (oracle : Nat → Except String String) :
    0 ≤ (check_compliance_with_retry oracle).score :=
  retryLoop_score_nonneg oracle 3 3 0

/-- C3 counterexample: an oracle response reporting a score of 150 yields a
ScoreResult whose score is 150, outside [0, 100] — the parse performs no
clamping. -/
theorem C3_counterexample :
    (check_compliance_with_retry fun _ => Except.ok "Score: 150").score = 150 ∧
    ¬ (check_compliance_with_retry fun _ => Except.ok "Score: 150").score ≤ 100 := by
  decide

/-- C5: check_compliance_with_retry consults the oracle on at most the three
attempts 0, 1 and 2 (its result depends on no later attempt), and when all
three fail it returns score 0 with an analysis carrying the last failure's
error message — a value, never a propagated error. -/
theorem C5_retry_exhaustion (oracle : Nat → Except String String) :
    (∀ e0 e1 e2, oracle 0 = Except.error e0 → oracle 1 = Except.error e1 →
      oracle 2 = Except.error e2 →
      check_compliance_with_retry oracle =
        { score := 0, analysis := "Error: " ++ e2, recommendations := "Unable to process" }) ∧
    ∀ oracle2 : Nat → Except String String, (∀ i, i < 3 → oracle i = oracle2 i) →
      check_compliance_with_retry oracle = check_compliance_with_retry oracle2 := by
  constructor
  · intro e0 e1 e2 h0 h1 h2
    simp [check_compliance_with_retry, retryLoop, h0, h1, h2]
  · intro oracle2 ho
    have h0 := ho 0 (by omega)
    have h1 := ho 1 (by omega)
    have h2 := ho 2 (by omega)
    cases ho0 : oracle2 0 with
    | ok r => simp [check_compliance_with_retry, retryLoop, h0, ho0]
    | error e =>
      cases ho1 : oracle2 1 with
      | ok r => simp [check_compliance_with_retry, retryLoop, h0, h1, ho0, ho1]
      | error e1 =>
        cases ho2 : oracle2 2 with
        | ok r => simp [check_compliance_with_retry, retryLoop, h0, h1, h2, ho0, ho1, ho2]
        | error e2 => simp [check_compliance_with_retry, retryLoop, h0, h1, h2, ho0, ho1, ho2]

/-- C5 witness: the all-failures outcome at a concrete oracle, and the
dependence on only the first three attempts. -/
theorem C5_retry_exhaustion_witness :
    check_compliance_with_retry (fun _ => Except.error "boom") =
      { score := 0, analysis := "Error: boom", recommendations := "Unable to process" } ∧
    check_compliance_with_retry (fun _ => Except.error "x") =
      check_compliance_with_retry (fun i => if i < 3 then Except.error "x" else Except.ok "y") := by
  refine ⟨(C5_retry_exhaustion fun _ => Except.error "boom").1 "boom" "boom" "boom" rfl rfl rfl, ?_⟩
  exact (C5_retry_exhaustion fun _ => Except.error "x").2 _ fun i hi => by simp [hi]

/-- C4 (amended): find_best_match returns (None, 0) exactly when the
candidate list is empty or the best fuzzy score is below 50 — a best score
of exactly 50 is returned together with its text — but process_policy_chunk
forwards a match to the scoring oracle only when the returned text is
truthy and the score is strictly greater than 50, so a candidate with
similarity exactly 50 is returned by the matcher yet never scored (see
C4_counterexample). -/
theorem C4_matcher_threshold (scorer : String → String → ℚ) (text : String) :
    find_best_match scorer text [] = (none, 0) ∧
    (∀ candidates bm sc, candidates ≠ [] →
      extractOne scorer (preprocess_text text) (candidates.map preprocess_text) =
        some (bm, sc) →
      (50 ≤ sc → find_best_match scorer text candidates = (some bm, sc)) ∧
      (sc < 50 → find_best_match scorer text candidates = (none, 0))) ∧
    (∀ s sc, chunkAccepts (some s, sc) = true ↔ s ≠ "" ∧ 50 < sc) ∧
    (∀ s, chunkAccepts (some s, (50 : ℚ)) = false) ∧
    ∀ sc, chunkAccepts ((none : Option String), sc) = false := by
  refine ⟨rfl, ?_, ?_, ?_, fun sc => rfl⟩
  · intro candidates bm sc hne hext
    constructor
    · intro hge
      simp [find_best_match, hne, hext, hge]
    · intro hlt
      have hn : ¬ (sc ≥ 50) := not_le.mpr hlt
      simp [find_best_match, hne, hext, hn]
  · intro s sc
    simp [chunkAccepts, pyTruthy]
  · intro s
    simp [chunkAccepts, pyTruthy]

/-- C4 counterexample: at similarity exactly 50, find_best_match accepts and
returns the candidate, but the guard of process_policy_chunk rejects it, so
the candidate is discarded without being scored — refuting the claim that a
similarity-50 candidate is accepted and scored. -/
theorem C4_counterexample :
    find_best_match (fun _ _ => (50 : ℚ)) "hello" ["hello"] = (some "hello", 50) ∧
    chunkAccepts (find_best_match (fun _ _ => (50 : ℚ)) "hello" ["hello"]) = false := by
  decide

/-- C4 witness: the amended matcher contract at concrete inputs. -/
theorem C4_matcher_threshold_witness :
    find_best_match (fun _ _ => (60 : ℚ)) "a" [] = (none, 0) ∧
    find_best_match (fun _ _ => (60 : ℚ)) "a" ["b"] = (some "b", 60) ∧
    chunkAccepts (some "b", (60 : ℚ)) = true := by
  have h := C4_matcher_threshold (fun _ _ => (60 : ℚ)) "a"
  refine ⟨h.1, ?_, ?_⟩
  · exact (h.2.1 ["b"] "b" 60 (by decide) (by decide)).1 (by norm_num)
  · exact (h.2.2.1 "b" 60).mpr ⟨by decide, by norm_num⟩

/-- C7: over any tokenizer whose decoding of a prefix of an encoding
re-encodes to that same prefix, truncate_to_token_limit never exceeds the
requested token budget, returns the text unchanged whenever it already fits,
and otherwise decodes exactly the first n tokens — prefix truncation at the
token level. -/
theorem C7_truncate (enc : Encoding)
    (hrt : ∀ s k, enc.encode (enc.decode ((enc.encode s).take k)) = (enc.encode s).take k)
    (text : String) (n : Nat) :
    count_tokens enc (truncate_to_token_limit enc text n) ≤ n ∧
    (count_tokens enc text ≤ n → truncate_to_token_limit enc text n = text) ∧
    (n < count_tokens enc text →
      truncate_to_token_limit enc text n = enc.decode ((enc.encode text).take n)) := by
  by_cases h : (enc.encode text).length > n
  · refine ⟨?_, fun hle => absurd h (by simp only [count_tokens] at hle; omega),
      fun _ => by simp [truncate_to_token_limit, h]⟩
    have heq : truncate_to_token_limit enc text n = enc.decode ((enc.encode text).take n) := by
      simp [truncate_to_token_limit, h]
    rw [heq]
    simp only [count_tokens, hrt]
    simp [List.length_take]
  · have heq : truncate_to_token_limit enc text n = text := by
      simp [truncate_to_token_limit, h]
    refine ⟨?_, fun _ => heq, fun hlt => absurd hlt (by simp only [count_tokens]; omega)⟩
    rw [heq]
    simp only [count_tokens]
    omega

/-- The character-code tokenizer re-encodes decoded prefixes exactly. -/
theorem charEncoding_roundtrip (s : String) (k : Nat) :
    charEncoding.encode (charEncoding.decode ((charEncoding.encode s).take k)) =
      (charEncoding.encode s).take k := by
  show ((String.mk (((s.toList.map Char.toNat).take k).map Char.ofNat)).toList).map Char.toNat =
    (s.toList.map Char.toNat).take k
  rw [show (String.mk ((((s.toList.map Char.toNat).take k).map Char.ofNat))).toList =
    (((s.toList.map Char.toNat).take k).map Char.ofNat) from rfl]
  rw [← List.map_take, List.map_map, List.map_map]
  have hcomp : ((Char.toNat ∘ Char.ofNat) ∘ Char.toNat) = Char.toNat := by
    funext c
    simp [Char.ofNat_toNat]
  rw [hcomp]

/-- C7 witness: the truncation bound and the identity case at the
character-code tokenizer. -/
theorem C7_truncate_witness :
    count_tokens charEncoding (truncate_to_token_limit charEncoding "abcde" 3) ≤ 3 ∧
    truncate_to_token_limit charEncoding "ab" 5 = "ab" := by
  refine ⟨(C7_truncate charEncoding charEncoding_roundtrip "abcde" 3).1, ?_⟩
  exact (C7_truncate charEncoding charEncoding_roundtrip "ab" 5).2.1 (by decide)
